import Mathlib

/-!
Verification of the real-time synchronization core of the repair-tracker
dashboard: the channel reconciler (`useOrdersData` in
`src/frontend/src/hooks/useHolidays.js`), the composite-key codec
(`src/frontend/src/utils/keyUtils.js`), and the WebSocket connection
manager (`WebSocketService` in `src/unnamed/part_004`).

Strings are modelled as `List Char`; JavaScript numbers holding entity ids
are modelled as `Int` (ids are integral in this protocol); JavaScript
`Set`s of callbacks are modelled as duplicate-free `List Nat` of abstract
callback handles; the `Map` of subscribers is modelled as an association
list in insertion order, mirroring JavaScript `Map` iteration order.
-/

set_option autoImplicit false

namespace RepairTracker

/-! ## Entity records and the channel reconciler

`useOrdersData` keeps each collection as an array of records with a
numeric `id` field.  The payload of a record (all fields other than `id`)
is abstracted as a value of an arbitrary type `α`; the reconciler never
inspects it. -/

/-- An entity record: a numeric `id` plus the rest of the record. -/
structure Rec (α : Type) where
  id : Int
  val : α
deriving DecidableEq

variable {α : Type}

/-- One step of the `update` loop body in `useOrdersData`
(useHolidays.js lines 54-63): `findIndex` a record with the same id,
replace it at that index if found, otherwise `push` at the end. -/
def upsertOne (coll : List (Rec α)) (r : Rec α) : List (Rec α) :=
  match coll.findIdx? (fun o => o.id == r.id) with
  | some i => coll.set i r
  | none => coll ++ [r]

/-- The `update` branch of the orders-message handler: fold the loop body
over the `data` array in array order (useHolidays.js lines 49-66). -/
def applyUpdate (coll : List (Rec α)) (data : List (Rec α)) : List (Rec α) :=
  data.foldl upsertOne coll

/-- Apply a sequence of `update` envelopes, in order, to the initially
empty collection (`useState([])` in `useOrdersData`). -/
def applyUpdates (envs : List (List (Rec α))) : List (Rec α) :=
  envs.foldl applyUpdate []

/-- The ids present in a collection, in collection order. -/
def idsOf (coll : List (Rec α)) : List Int :=
  coll.map Rec.id

/-- First record with the given id (mirrors what `findIndex` locates). -/
def lookupId : List (Rec α) → Int → Option (Rec α)
  | [], _ => none
  | r :: rest, i => if r.id == i then some r else lookupId rest i

/-- The last record carrying the given id in a stream of records; this is
the spec's phrase "the last record supplied for that id". -/
def lastRecordForId : List (Rec α) → Int → Option (Rec α)
  | [], _ => none
  | r :: rest, i =>
    match lastRecordForId rest i with
    | some x => some x
    | none => if r.id == i then some r else none

/-- Recursive restatement of `upsertOne`, convenient for induction. -/
def upsertRec : List (Rec α) → Rec α → List (Rec α)
  | [], x => [x]
  | r :: rest, x => if r.id == x.id then x :: rest else r :: upsertRec rest x

theorem upsertOne_eq_upsertRec (coll : List (Rec α)) (x : Rec α) :
    upsertOne coll x = upsertRec coll x := by
  induction coll with
  | nil => rfl
  | cons a rest ih =>
    by_cases h : a.id == x.id
    · simp [upsertOne, upsertRec, List.findIdx?_cons, h]
    · have hrw : (a :: rest).findIdx? (fun o => o.id == x.id) =
          (rest.findIdx? (fun o => o.id == x.id)).map (· + 1) := by
        simp [List.findIdx?_cons, h, List.findIdx?_succ]
      simp only [upsertOne, hrw, upsertRec, h, if_false]
      cases hfind : rest.findIdx? (fun o => o.id == x.id) with
      | none =>
        simp only [upsertOne, hfind] at ih
        simp only [hfind, Option.map_none', List.cons_append]
        rw [ih]
        simp
      | some j =>
        simp only [upsertOne, hfind] at ih
        simp only [hfind, Option.map_some', List.set_cons_succ]
        rw [ih]
        simp

theorem lookupId_upsertRec (coll : List (Rec α)) (x : Rec α) (i : Int) :
    lookupId (upsertRec coll x) i =
      if x.id == i then some x else lookupId coll i := by
  induction coll with
  | nil => rfl
  | cons r rest ih =>
    by_cases h : r.id == x.id
    · have h' : r.id = x.id := by simpa using h
      simp only [upsertRec, h, if_true, lookupId, h']
      by_cases hxi : x.id == i
      · simp [lookupId, hxi]
      · simp [lookupId, hxi]
    · have h' : r.id ≠ x.id := by simpa using h
      simp only [upsertRec, h, if_false, lookupId, ih]
      by_cases hri : r.id == i
      · have hri' : r.id = i := by simpa using hri
        have hxi : ¬(x.id == i) = true := by
          simp only [beq_iff_eq]
          exact fun hx => h' (hx ▸ hri')
        simp [hri, hxi]
      · simp [hri]

theorem idsOf_upsertRec (coll : List (Rec α)) (x : Rec α) :
    idsOf (upsertRec coll x) =
      if x.id ∈ idsOf coll then idsOf coll else idsOf coll ++ [x.id] := by
  induction coll with
  | nil => simp [upsertRec, idsOf]
  | cons r rest ih =>
    by_cases h : r.id == x.id
    · have h' : r.id = x.id := by simpa using h
      simp [upsertRec, h, idsOf, h']
    · have h' : r.id ≠ x.id := by simpa using h
      have hxr : x.id ≠ r.id := fun he => h' he.symm
      have hx : (x.id ∈ r.id :: idsOf rest) ↔ x.id ∈ idsOf rest := by
        simp [List.mem_cons, hxr]
      simp only [upsertRec, h, if_false, idsOf, List.map_cons]
      by_cases hmem : x.id ∈ idsOf rest
      · simp only [idsOf] at hmem ih
        simp [hmem, hx, ih, hxr]
      · simp only [idsOf] at hmem ih
        simp [hmem, hx, ih, hxr]

theorem mem_idsOf_upsertRec (coll : List (Rec α)) (x : Rec α) (i : Int) :
    i ∈ idsOf (upsertRec coll x) ↔ i ∈ idsOf coll ∨ i = x.id := by
  rw [idsOf_upsertRec]
  by_cases hmem : x.id ∈ idsOf coll
  · simp only [hmem, if_true]
    constructor
    · exact Or.inl
    · rintro (h | rfl)
      · exact h
      · exact hmem
  · simp [hmem]

theorem nodup_idsOf_upsertRec (coll : List (Rec α)) (x : Rec α)
    (h : (idsOf coll).Nodup) : (idsOf (upsertRec coll x)).Nodup := by
  rw [idsOf_upsertRec]
  by_cases hmem : x.id ∈ idsOf coll
  · simpa [hmem] using h
  · simp [hmem, List.nodup_append, h]

theorem upsertOne_of_not_mem (coll : List (Rec α)) (x : Rec α)
    (h : x.id ∉ idsOf coll) : upsertOne coll x = coll ++ [x] := by
  rw [upsertOne_eq_upsertRec]
  induction coll with
  | nil => rfl
  | cons r rest ih =>
    have hne : r.id ≠ x.id := by
      intro he
      exact h (by simp [idsOf, he.symm])
    have hrest : x.id ∉ idsOf rest := by
      intro hm
      exact h (by simp [idsOf] at hm ⊢; exact Or.inr hm)
    simp [upsertRec, hne, ih hrest]

theorem upsertOne_replace_in_place (x : Rec α) (pre : List (Rec α))
    (old : Rec α) (post : List (Rec α)) (hid : old.id = x.id)
    (hpre : x.id ∉ idsOf pre) :
    upsertOne (pre ++ old :: post) x = pre ++ x :: post := by
  rw [upsertOne_eq_upsertRec]
  induction pre with
  | nil => simp [upsertRec, hid]
  | cons a pre' ih =>
    have hne : a.id ≠ x.id := by
      intro he
      exact hpre (by simp [idsOf, he.symm])
    have hpre' : x.id ∉ idsOf pre' := by
      intro hm
      exact hpre (by simp [idsOf] at hm ⊢; exact Or.inr hm)
    simp [upsertRec, hne, ih hpre']

theorem lookupId_foldl (stream : List (Rec α)) :
    ∀ (acc : List (Rec α)) (i : Int),
      lookupId (stream.foldl upsertOne acc) i =
        match lastRecordForId stream i with
        | some x => some x
        | none => lookupId acc i := by
  induction stream with
  | nil => intro acc i; rfl
  | cons r rest ih =>
    intro acc i
    simp only [List.foldl_cons, ih, lastRecordForId]
    cases hl : lastRecordForId rest i with
    | some x => rfl
    | none =>
      simp only [upsertOne_eq_upsertRec, lookupId_upsertRec]
      by_cases hri : r.id == i
      · simp [hri]
      · simp [hri]

theorem mem_idsOf_foldl (stream : List (Rec α)) :
    ∀ (acc : List (Rec α)) (i : Int),
      i ∈ idsOf (stream.foldl upsertOne acc) ↔
        i ∈ idsOf acc ∨ i ∈ idsOf stream := by
  induction stream with
  | nil => intro acc i; simp [idsOf]
  | cons r rest ih =>
    intro acc i
    simp only [List.foldl_cons, ih, upsertOne_eq_upsertRec, mem_idsOf_upsertRec]
    simp only [idsOf, List.map_cons, List.mem_cons]
    tauto

theorem nodup_idsOf_foldl (stream : List (Rec α)) :
    ∀ (acc : List (Rec α)), (idsOf acc).Nodup →
      (idsOf (stream.foldl upsertOne acc)).Nodup := by
  induction stream with
  | nil => intro acc h; exact h
  | cons r rest ih =>
    intro acc h
    simp only [List.foldl_cons]
    exact ih _ (by rw [upsertOne_eq_upsertRec]; exact nodup_idsOf_upsertRec _ _ h)

theorem lookupId_self (coll : List (Rec α)) (r : Rec α)
    (h : (idsOf coll).Nodup) (hr : r ∈ coll) : lookupId coll r.id = some r := by
  induction coll with
  | nil => cases hr
  | cons a rest ih =>
    simp only [idsOf, List.map_cons, List.nodup_cons] at h
    rcases List.mem_cons.mp hr with rfl | hr'
    · simp [lookupId]
    · have hne : ¬(a.id == r.id) = true := by
        simp only [beq_iff_eq]
        intro he
        exact h.1 (he ▸ List.mem_map_of_mem Rec.id hr')
      simp only [lookupId, hne, if_false]
      exact ih h.2 hr'

theorem applyUpdates_eq_foldl_flatten (envs : List (List (Rec α))) :
    applyUpdates envs = envs.flatten.foldl upsertOne [] := by
  suffices h : ∀ acc : List (Rec α),
      envs.foldl applyUpdate acc = envs.flatten.foldl upsertOne acc by
    exact h []
  induction envs with
  | nil => intro acc; rfl
  | cons env rest ih =>
    intro acc
    simp only [List.foldl_cons, applyUpdate, ih, List.flatten_cons, List.foldl_append]

/-- **C1.** For every sequence of `update` envelopes applied in order to
the initially empty collection: the fold over envelopes equals the fold
of the single upsert step over the concatenated record stream (so within
one envelope entries are applied in array order and later entries for the
same id win); the resulting collection has pairwise-distinct ids; its ids
are exactly the ids seen in the stream; each resulting record is the last
record supplied for its id; and one upsert step replaces an existing
record in place (preserving all other elements and their order) or
appends a record with a new id at the end. -/
theorem update_envelopes_reconcile (α : Type) (envs : List (List (Rec α))) :
    applyUpdates envs = envs.flatten.foldl upsertOne [] ∧
    (idsOf (applyUpdates envs)).Nodup ∧
    (∀ i : Int, i ∈ idsOf (applyUpdates envs) ↔ i ∈ idsOf envs.flatten) ∧
    (∀ r ∈ applyUpdates envs, lastRecordForId envs.flatten r.id = some r) ∧
    (∀ (coll : List (Rec α)) (x : Rec α),
      (x.id ∉ idsOf coll → upsertOne coll x = coll ++ [x]) ∧
      (∀ (pre : List (Rec α)) (old : Rec α) (post : List (Rec α)),
        old.id = x.id → x.id ∉ idsOf pre →
        upsertOne (pre ++ old :: post) x = pre ++ x :: post)) := by
  have hjoin := applyUpdates_eq_foldl_flatten (α := α) envs
  have hnodup : (idsOf (applyUpdates envs)).Nodup := by
    rw [hjoin]
    exact nodup_idsOf_foldl _ _ (by simp [idsOf])
  refine ⟨hjoin, hnodup, ?_, ?_, ?_⟩
  · intro i
    rw [hjoin, mem_idsOf_foldl]
    simp [idsOf]
  · intro r hr
    have hself : lookupId (applyUpdates envs) r.id = some r :=
      lookupId_self _ _ hnodup hr
    rw [hjoin] at hself
    rw [lookupId_foldl] at hself
    cases hl : lastRecordForId envs.flatten r.id with
    | some x =>
      rw [hl] at hself
      simpa using hself
    | none =>
      rw [hl] at hself
      simp [lookupId] at hself
  · intro coll x
    exact ⟨upsertOne_of_not_mem coll x,
      fun pre old post hid hpre => upsertOne_replace_in_place x pre old post hid hpre⟩

/-! ## Composite-key codec (`keyUtils.js`)

Keys are modelled as `List Char`.  `String.prototype.split('-')` is
modelled by `splitOnChar '-'`, and `parseInt(s, 10)` by `jsParseInt10`
(skip leading whitespace, optional sign, then the longest leading run of
decimal digits; `NaN` becomes `none`). -/

/-- JavaScript `s.split(sep)` for a single-character separator: splits at
every occurrence of `c`; `""` splits to `[""]`. -/
def splitOnChar (c : Char) : List Char → List (List Char)
  | [] => [[]]
  | x :: xs =>
    if x = c then [] :: splitOnChar c xs
    else
      match splitOnChar c xs with
      | [] => [[x]]
      | y :: ys => (x :: y) :: ys

/-- ASCII decimal digit test. -/
def isDigitChar (c : Char) : Bool :=
  48 ≤ c.toNat && c.toNat ≤ 57

/-- The decimal digit character for `d` (callers pass `d < 10`). -/
def digitChar (d : Nat) : Char :=
  match d with
  | 0 => '0' | 1 => '1' | 2 => '2' | 3 => '3' | 4 => '4'
  | 5 => '5' | 6 => '6' | 7 => '7' | 8 => '8' | _ => '9'

/-- Decimal rendering of a natural number, modelling the JavaScript
number-to-string conversion in the template literal of `createJiraKey`. -/
def natToDigits (n : Nat) : List Char :=
  if _h : n < 10 then [digitChar n]
  else natToDigits (n / 10) ++ [digitChar (n % 10)]
decreasing_by exact Nat.div_lt_self (by omega) (by omega)

/-- Numeric value of a decimal digit character. -/
def digitVal (c : Char) : Nat :=
  c.toNat - 48

/-- Value of a digit string (most significant digit first). -/
def digitsToNat (ds : List Char) : Nat :=
  ds.foldl (fun acc c => acc * 10 + digitVal c) 0

/-- The whitespace characters `parseInt` skips. -/
def isSpaceChar (c : Char) : Bool :=
  c == ' ' || c == '\t' || c == '\n' || c == '\r' || c == '\x0b' || c == '\x0c'

/-- Longest leading run of decimal digits, `none` when there is none. -/
def parseLeadingDigits (s : List Char) : Option Nat :=
  let ds := s.takeWhile isDigitChar
  if ds.isEmpty then none else some (digitsToNat ds)

/-- Model of JavaScript `parseInt(s, 10)`: skip leading whitespace, read
an optional sign, then the longest leading digit run; `none` models
`NaN`. -/
def jsParseInt10 (s : List Char) : Option Int :=
  match s.dropWhile isSpaceChar with
  | '+' :: rest => (parseLeadingDigits rest).map (fun n => (n : Int))
  | '-' :: rest => (parseLeadingDigits rest).map (fun n => -(n : Int))
  | s1 => (parseLeadingDigits s1).map (fun n => (n : Int))

/-- Result of a successful `parseJiraKey`. -/
structure ParsedKey where
  type : String
  id : Int
  pfx : List Char
deriving DecidableEq

/-- The `typeMap` literal in `parseJiraKey` (keyUtils.js lines 21-27). -/
def typeMap (p : List Char) : Option String :=
  if p = ['A', 'S'] then some "assignee"
  else if p = ['S', 'T'] then some "status"
  else if p = ['U', 'M'] then some "unit_model"
  else if p = ['R', 'O'] then some "repair_order"
  else if p = ['R', 'U'] then some "repair_unit"
  else none

/-- `parseJiraKey` (keyUtils.js lines 10-33): reject the empty (falsy)
string, split on `'-'`, require exactly two segments, `parseInt` the
second, require a known two-letter code as the first. -/
def parseJiraKey (key : List Char) : Option ParsedKey :=
  if key = [] then none
  else
    match splitOnChar '-' key with
    | [p, idStr] =>
      match jsParseInt10 idStr with
      | none => none
      | some id =>
        match typeMap p with
        | none => none
        | some t => some ⟨t, id, p⟩
    | _ => none

/-- `getIdFromKey` (keyUtils.js lines 61-64). -/
def getIdFromKey (key : List Char) : Option Int :=
  (parseJiraKey key).map ParsedKey.id

/-- The `prefixMap` literal in `createJiraKey` (keyUtils.js lines 42-48). -/
def pfxMap (t : String) : Option (List Char) :=
  if t = "assignee" then some ['A', 'S']
  else if t = "status" then some ['S', 'T']
  else if t = "unit_model" then some ['U', 'M']
  else if t = "repair_order" then some ['R', 'O']
  else if t = "repair_unit" then some ['R', 'U']
  else none

/-- `createJiraKey` (keyUtils.js lines 41-54); ids in this protocol are
(positive) integers, modelled as `Nat`. -/
def createJiraKey (t : String) (id : Nat) : Option (List Char) :=
  (pfxMap t).map (fun p => p ++ '-' :: natToDigits id)

/-- The `delete` branch of the orders-message handler (useHolidays.js
lines 68-74): decode every key, collect the decoded ids, and keep exactly
the records whose id is not among them. -/
def applyDelete (coll : List (Rec α)) (keys : List (List Char)) : List (Rec α) :=
  coll.filter (fun o => !((keys.map getIdFromKey).contains (some o.id)))

theorem splitOnChar_ne_nil (c : Char) (l : List Char) :
    splitOnChar c l ≠ [] := by
  cases l with
  | nil => simp [splitOnChar]
  | cons x xs =>
    by_cases h : x = c
    · simp [splitOnChar, h]
    · simp only [splitOnChar, h, if_false]
      cases splitOnChar c xs <;> simp

theorem splitOnChar_of_not_mem (c : Char) (l : List Char)
    (h : c ∉ l) : splitOnChar c l = [l] := by
  induction l with
  | nil => rfl
  | cons x xs ih =>
    have hx : x ≠ c := fun he => h (he ▸ List.mem_cons_self x xs)
    have hxs : c ∉ xs := fun hm => h (List.mem_cons_of_mem x hm)
    simp only [splitOnChar, hx, if_false, ih hxs]

theorem splitOnChar_append_sep (c : Char) (l1 l2 : List Char)
    (h : c ∉ l1) : splitOnChar c (l1 ++ c :: l2) = l1 :: splitOnChar c l2 := by
  induction l1 with
  | nil => simp [splitOnChar]
  | cons x xs ih =>
    have hx : x ≠ c := fun he => h (he ▸ List.mem_cons_self x xs)
    have hxs : c ∉ xs := fun hm => h (List.mem_cons_of_mem x hm)
    simp only [List.cons_append, splitOnChar, hx, if_false, List.append_eq]
    rw [ih hxs]

theorem digitChar_toNat (d : Nat) (h : d < 10) :
    (digitChar d).toNat = 48 + d := by
  interval_cases d <;> rfl

theorem isDigitChar_digitChar (d : Nat) (h : d < 10) :
    isDigitChar (digitChar d) = true := by
  interval_cases d <;> rfl

theorem natToDigits_ne_nil (n : Nat) : natToDigits n ≠ [] := by
  rw [natToDigits]
  split
  · simp
  · simp

theorem natToDigits_all_digits (n : Nat) :
    ∀ c ∈ natToDigits n, isDigitChar c = true := by
  induction n using Nat.strong_induction_on with
  | _ n ih =>
    rw [natToDigits]
    split
    · next h =>
      intro c hc
      rw [List.mem_singleton] at hc
      exact hc ▸ isDigitChar_digitChar n h
    · next h =>
      intro c hc
      rcases List.mem_append.mp hc with hc1 | hc2
      · exact ih (n / 10) (Nat.div_lt_self (by omega) (by omega)) c hc1
      · rw [List.mem_singleton] at hc2
        exact hc2 ▸ isDigitChar_digitChar (n % 10) (Nat.mod_lt n (by omega))

theorem isDigitChar_bounds {c : Char} (h : isDigitChar c = true) :
    48 ≤ c.toNat ∧ c.toNat ≤ 57 := by
  simpa [isDigitChar] using h

theorem not_space_of_digit {c : Char} (h : isDigitChar c = true) :
    isSpaceChar c = false := by
  have hb := isDigitChar_bounds h
  simp only [isSpaceChar, Bool.or_eq_false_iff, beq_eq_false_iff_ne]
  refine ⟨⟨⟨⟨⟨?_, ?_⟩, ?_⟩, ?_⟩, ?_⟩, ?_⟩ <;>
    (intro he; subst he; revert hb; decide)

theorem ne_plus_of_digit {c : Char} (h : isDigitChar c = true) : c ≠ '+' := by
  have hb := isDigitChar_bounds h
  intro he; subst he; revert hb; decide

theorem ne_minus_of_digit {c : Char} (h : isDigitChar c = true) : c ≠ '-' := by
  have hb := isDigitChar_bounds h
  intro he; subst he; revert hb; decide

theorem digitVal_digitChar (d : Nat) (h : d < 10) :
    digitVal (digitChar d) = d := by
  simp [digitVal, digitChar_toNat d h]

theorem foldl_digits_natToDigits (n : Nat) :
    ∀ acc : Nat,
      (natToDigits n).foldl (fun a c => a * 10 + digitVal c) acc =
        acc * 10 ^ (natToDigits n).length + n := by
  induction n using Nat.strong_induction_on with
  | _ n ih =>
    intro acc
    rw [natToDigits]
    split
    · next h =>
      simp [List.foldl_cons, digitVal_digitChar n h]
    · next h =>
      rw [List.foldl_append, ih (n / 10) (Nat.div_lt_self (by omega) (by omega)),
        List.length_append]
      simp only [List.foldl_cons, List.foldl_nil, List.length_singleton,
        digitVal_digitChar (n % 10) (Nat.mod_lt n (by omega))]
      rw [pow_succ, ← mul_assoc]
      generalize acc * 10 ^ (natToDigits (n / 10)).length = A
      omega

theorem digitsToNat_natToDigits (n : Nat) :
    digitsToNat (natToDigits n) = n := by
  have h := foldl_digits_natToDigits n 0
  simpa [digitsToNat] using h

theorem takeWhile_digits (l : List Char) (h : ∀ c ∈ l, isDigitChar c = true) :
    l.takeWhile isDigitChar = l := by
  induction l with
  | nil => rfl
  | cons x xs ih =>
    simp only [List.takeWhile_cons, h x (List.mem_cons_self x xs), if_true]
    rw [ih fun c hc => h c (List.mem_cons_of_mem x hc)]

theorem jsParseInt10_digits (l : List Char) (hne : l ≠ [])
    (h : ∀ c ∈ l, isDigitChar c = true) :
    jsParseInt10 l = some ((digitsToNat l : Nat) : Int) := by
  cases l with
  | nil => exact absurd rfl hne
  | cons x xs =>
    have hx := h x (List.mem_cons_self x xs)
    have hdrop : (x :: xs).dropWhile isSpaceChar = x :: xs := by
      simp [List.dropWhile_cons, not_space_of_digit hx]
    have htake : (x :: xs).takeWhile isDigitChar = x :: xs :=
      takeWhile_digits _ h
    have hplus := ne_plus_of_digit hx
    have hminus := ne_minus_of_digit hx
    rw [jsParseInt10]
    split
    · next rest heq =>
      rw [hdrop] at heq
      exact absurd (List.head_eq_of_cons_eq heq.symm).symm hplus
    · next rest heq =>
      rw [hdrop] at heq
      exact absurd (List.head_eq_of_cons_eq heq.symm).symm hminus
    · next s1 heq1 heq2 =>
      rw [hdrop]
      simp [parseLeadingDigits, htake]

theorem pfxMap_inv (t : String) (p : List Char) (hp : pfxMap t = some p) :
    p ≠ [] ∧ '-' ∉ p ∧ typeMap p = some t := by
  unfold pfxMap at hp
  split_ifs at hp with h1 h2 h3 h4 h5
  · subst h1; cases hp; exact ⟨by decide, by decide, by decide⟩
  · subst h2; cases hp; exact ⟨by decide, by decide, by decide⟩
  · subst h3; cases hp; exact ⟨by decide, by decide, by decide⟩
  · subst h4; cases hp; exact ⟨by decide, by decide, by decide⟩
  · subst h5; cases hp; exact ⟨by decide, by decide, by decide⟩

theorem parseJiraKey_two_segs (key p ds : List Char) (hne : key ≠ [])
    (hsp : splitOnChar '-' key = [p, ds]) :
    parseJiraKey key =
      (match jsParseInt10 ds with
       | none => none
       | some i =>
         match typeMap p with
         | none => none
         | some t => some ⟨t, i, p⟩) := by
  unfold parseJiraKey
  rw [if_neg hne, hsp]

theorem parseJiraKey_pfx_digits (t : String) (p : List Char) (id : Nat)
    (hpne : p ≠ []) (hnod : '-' ∉ p) (ht : typeMap p = some t) :
    parseJiraKey (p ++ '-' :: natToDigits id) = some ⟨t, (id : Int), p⟩ := by
  have hds := natToDigits_all_digits id
  have hne := natToDigits_ne_nil id
  have hnodash : '-' ∉ natToDigits id :=
    fun hm => ne_minus_of_digit (hds _ hm) rfl
  have hparse : jsParseInt10 (natToDigits id) = some ((digitsToNat (natToDigits id) : Nat) : Int) :=
    jsParseInt10_digits _ hne hds
  rw [digitsToNat_natToDigits] at hparse
  have hsplit : splitOnChar '-' (p ++ '-' :: natToDigits id) = [p, natToDigits id] := by
    rw [splitOnChar_append_sep '-' p _ hnod, splitOnChar_of_not_mem '-' _ hnodash]
  have hkeyne : p ++ '-' :: natToDigits id ≠ [] := by
    cases p with
    | nil => exact absurd rfl hpne
    | cons a as => simp
  rw [parseJiraKey_two_segs _ p (natToDigits id) hkeyne hsplit, hparse, ht]

theorem getIdFromKey_pfx_digits (t : String) (p : List Char) (id : Nat)
    (hp : pfxMap t = some p) :
    getIdFromKey (p ++ '-' :: natToDigits id) = some (id : Int) := by
  obtain ⟨hpne, hnod, ht⟩ := pfxMap_inv t p hp
  rw [getIdFromKey, parseJiraKey_pfx_digits t p id hpne hnod ht]
  rfl

/-- **C3.** For every entity type in the `prefixMap`/`typeMap` domain and
every positive integer id, `createJiraKey` produces the key
`<prefix>-<decimal id>` and `parseJiraKey` decodes it back to exactly
that type and that id. -/
theorem createKey_parseKey_roundtrip (t : String) (p : List Char) (id : Nat)
    (hp : pfxMap t = some p) (hid : 0 < id) :
    createJiraKey t id = some (p ++ '-' :: natToDigits id) ∧
    parseJiraKey (p ++ '-' :: natToDigits id) = some ⟨t, (id : Int), p⟩ := by
  obtain ⟨hpne, hnod, ht⟩ := pfxMap_inv t p hp
  exact ⟨by rw [createJiraKey, hp]; rfl,
    parseJiraKey_pfx_digits t p id hpne hnod ht⟩

/-- Witness for C3 at type `repair_order`, id 123. -/
theorem createKey_parseKey_roundtrip_witness :
    pfxMap "repair_order" = some ['R', 'O'] ∧ 0 < 123 ∧
    (createJiraKey "repair_order" 123 = some (['R', 'O'] ++ '-' :: natToDigits 123) ∧
     parseJiraKey (['R', 'O'] ++ '-' :: natToDigits 123) =
       some ⟨"repair_order", (123 : Int), ['R', 'O']⟩) :=
  ⟨by decide, by decide,
    createKey_parseKey_roundtrip "repair_order" ['R', 'O'] 123 (by decide) (by decide)⟩

/-- ASCII letter test, for the claim's shape `<2 letters>-<digits>`. -/
def isAsciiLetter (c : Char) : Bool :=
  (65 ≤ c.toNat && c.toNat ≤ 90) || (97 ≤ c.toNat && c.toNat ≤ 122)

/-- The claim's key shape `<2 letters>-<digits>`: exactly two
`'-'`-separated segments, the first two letters, the second a nonempty
run of digits. -/
def matchesShape (s : List Char) : Bool :=
  match splitOnChar '-' s with
  | [p, d] => p.length == 2 && p.all isAsciiLetter && !d.isEmpty && d.all isDigitChar
  | _ => false

/-- **C4, counterexample.** `"RO-1a"` does not match `<2 letters>-<digits>`
(the id segment contains a letter), yet `parseJiraKey` does not yield the
invalid result: JavaScript `parseInt("1a", 10)` is `1`, so the key decodes
to `repair_order` id 1. -/
theorem malformed_key_counterexample :
    matchesShape ['R', 'O', '-', '1', 'a'] = false ∧
    parseJiraKey ['R', 'O', '-', '1', 'a'] ≠ none := by decide

/-- **C4, amended.** Decoding yields the invalid result (and, being a
total function, never raises) whenever the split on `'-'` does not have
exactly two segments, or the id segment has no parseable leading integer
(JavaScript `parseInt` semantics), or the first segment is not one of the
five known codes. -/
theorem malformed_key_yields_none (s p ds : List Char)
    (h : (splitOnChar '-' s).length ≠ 2 ∨
         (splitOnChar '-' s = [p, ds] ∧
           (jsParseInt10 ds = none ∨ typeMap p = none))) :
    parseJiraKey s = none := by
  by_cases hnil : s = []
  · rw [parseJiraKey, if_pos hnil]
  · cases hsp : splitOnChar '-' s with
    | nil => unfold parseJiraKey; rw [if_neg hnil, hsp]
    | cons a tail =>
      cases tail with
      | nil => unfold parseJiraKey; rw [if_neg hnil, hsp]
      | cons b tail2 =>
        cases tail2 with
        | cons c tail3 => unfold parseJiraKey; rw [if_neg hnil, hsp]
        | nil =>
          rcases h with hlen | ⟨heq, hbad⟩
          · rw [hsp] at hlen
            exact absurd rfl hlen
          · rw [hsp] at heq
            injection heq with h1 h2
            injection h2 with h2 _
            subst h1
            subst h2
            rw [parseJiraKey_two_segs s a b hnil hsp]
            rcases hbad with hparse | htype
            · rw [hparse]
            · rw [htype]
              cases jsParseInt10 b <;> rfl

/-- Witness for the amended C4 at `"XX-1"` (unknown code). -/
theorem malformed_key_yields_none_witness :
    ((splitOnChar '-' ['X', 'X', '-', '1']).length ≠ 2 ∨
      (splitOnChar '-' ['X', 'X', '-', '1'] = [['X', 'X'], ['1']] ∧
        (jsParseInt10 ['1'] = none ∨ typeMap ['X', 'X'] = none))) ∧
    parseJiraKey ['X', 'X', '-', '1'] = none :=
  ⟨by decide, malformed_key_yields_none ['X', 'X', '-', '1'] ['X', 'X'] ['1'] (by decide)⟩

theorem contains_map_getId (keys : List (List Char)) (v : Int) :
    (keys.map getIdFromKey).contains (some v) =
      keys.any (fun k' => getIdFromKey k' == some v) := by
  induction keys with
  | nil => rfl
  | cons k' ks ih =>
    simp only [List.map_cons, List.contains_cons, List.any_cons, ih]
    cases hk : getIdFromKey k' with
    | none => simp
    | some w => simp [BEq.comm]

/-- **C2.** A `delete` envelope removes exactly the collection members
whose id is the decoded id of some key in `data` (all other members
remain, in their original order: the result is a sublist), and a key that
decodes to no id (malformed) is a no-op that does not disturb the
processing of the other keys of the same envelope. -/
theorem delete_envelope_semantics (α : Type) (coll : List (Rec α))
    (keys ks1 ks2 : List (List Char)) (k : List Char)
    (hk : getIdFromKey k = none) :
    applyDelete coll keys =
      coll.filter (fun r => !(keys.any (fun k' => getIdFromKey k' == some r.id))) ∧
    (applyDelete coll keys).Sublist coll ∧
    applyDelete coll (ks1 ++ k :: ks2) = applyDelete coll (ks1 ++ ks2) := by
  refine ⟨?_, ?_, ?_⟩
  · unfold applyDelete
    exact List.filter_congr fun r _ => by rw [contains_map_getId]
  · exact List.filter_sublist _
  · unfold applyDelete
    refine List.filter_congr fun r _ => ?_
    rw [contains_map_getId, contains_map_getId]
    simp [List.any_append, hk]

/-- Witness for C2: deleting `["RO-3"]` from `[{id 3}, {id 7}]`, with the
malformed key `"ZZ-9"` as a no-op. -/
theorem delete_envelope_semantics_witness :
    getIdFromKey ['Z', 'Z', '-', '9'] = none ∧
    (applyDelete [Rec.mk 3 (0 : Nat), Rec.mk 7 0] [['R', 'O', '-', '3']] =
        List.filter
          (fun r => !([['R', 'O', '-', '3']].any (fun k' => getIdFromKey k' == some r.id)))
          [Rec.mk 3 (0 : Nat), Rec.mk 7 0] ∧
      (applyDelete [Rec.mk 3 (0 : Nat), Rec.mk 7 0] [['R', 'O', '-', '3']]).Sublist
        [Rec.mk 3 (0 : Nat), Rec.mk 7 0] ∧
      applyDelete [Rec.mk 3 (0 : Nat), Rec.mk 7 0]
          ([] ++ ['Z', 'Z', '-', '9'] :: [['R', 'O', '-', '3']]) =
        applyDelete [Rec.mk 3 (0 : Nat), Rec.mk 7 0] ([] ++ [['R', 'O', '-', '3']])) :=
  ⟨by decide,
    delete_envelope_semantics Nat [Rec.mk 3 (0 : Nat), Rec.mk 7 0]
      [['R', 'O', '-', '3']] [] [['R', 'O', '-', '3']] ['Z', 'Z', '-', '9'] (by decide)⟩

/-- **C10.** Delete reconciliation matches on the decoded numeric id alone
and discards the entity type: a key built from any of the five valid
codes removes exactly the members with that numeric id from any
collection, regardless of which entity type the collection holds. -/
theorem delete_matches_id_only (α : Type) (t : String) (p : List Char)
    (id : Nat) (coll : List (Rec α)) (hp : pfxMap t = some p) (hid : 0 < id) :
    applyDelete coll [p ++ '-' :: natToDigits id] =
      coll.filter (fun r => !(r.id == (id : Int))) := by
  have hkey := getIdFromKey_pfx_digits t p id hp
  unfold applyDelete
  refine List.filter_congr fun r _ => ?_
  by_cases hr : r.id = (id : Int)
  · simp [hkey, hr]
  · simp [hkey, hr]

/-- Witness for C10: the `status`-typed key `"ST-7"` removes the record
with id 7 from an orders collection. -/
theorem delete_matches_id_only_witness :
    pfxMap "status" = some ['S', 'T'] ∧ 0 < 7 ∧
    applyDelete [Rec.mk 7 (0 : Nat), Rec.mk 3 1] [['S', 'T'] ++ '-' :: natToDigits 7] =
      List.filter (fun r => !(r.id == (7 : Int))) [Rec.mk 7 (0 : Nat), Rec.mk 3 1] :=
  ⟨by decide, by decide,
    delete_matches_id_only Nat "status" ['S', 'T'] 7
      [Rec.mk 7 (0 : Nat), Rec.mk 3 1] (by decide) (by decide)⟩

/-! ## WebSocket connection manager (`WebSocketService`, part_004)

The service is modelled as a state (`WS`) plus handlers returning the new
state and the list of observable actions they perform: constructing a new
transport (`newSocket`, line 27 `new WebSocket(wsUrl)`), invoking
`this.send` with a message (`sendMsg`), and arming a reconnect timer
(`schedule`).  Event handlers run one at a time on the single-threaded
event loop, so a run is a fold over an event list. -/

/-- Wire messages the service sends (only `subscribe` envelopes are
relevant to the claims under verification). -/
inductive Msg where
  | subscribeMsg (channels : List String)
deriving DecidableEq

/-- Observable side effects of the service. -/
inductive Action where
  | newSocket
  | sendMsg (m : Msg)
  | schedule (delayMs : Nat)
deriving DecidableEq

/-- The mutable fields of `WebSocketService` (part_004 lines 7-15).
Callbacks are abstracted as `Nat` handles; each channel's `Set` of
callbacks is a duplicate-free list; the `Map` is an association list in
insertion order. -/
structure WS where
  hasSocket : Bool
  connected : Bool
  websocketId : Option Nat
  subscribers : List (String × List Nat)
  reconnectAttempts : Nat
  maxReconnectAttempts : Nat
  reconnectDelay : Nat
deriving DecidableEq

/-- The constructor state (part_004 lines 7-15). -/
def initWS : WS :=
  { hasSocket := false, connected := false, websocketId := none,
    subscribers := [], reconnectAttempts := 0, maxReconnectAttempts := 10,
    reconnectDelay := 1000 }

/-- The synchronous part of `connect()` (part_004 lines 20-27): a new
`WebSocket` is constructed unconditionally and stored in `this.ws`. -/
def connectCall (s : WS) : WS × List Action :=
  ({ s with hasSocket := true }, [Action.newSocket])

/-- The `onopen` handler (part_004 lines 29-34). -/
def handleOpen (s : WS) : WS :=
  { s with connected := true, reconnectAttempts := 0 }

/-- `attemptReconnect` (part_004 lines 57-81): stop at the ceiling,
otherwise increment the counter and arm a timer with delay
`reconnectDelay * 2 ^ (reconnectAttempts - 1)` (after the increment). -/
def attemptReconnect (s : WS) : WS × List Action :=
  if s.reconnectAttempts ≥ s.maxReconnectAttempts then (s, [])
  else
    ({ s with reconnectAttempts := s.reconnectAttempts + 1 },
     [Action.schedule (s.reconnectDelay * 2 ^ (s.reconnectAttempts + 1 - 1))])

/-- The `onclose` handler (part_004 lines 45-50): clear `connected` and
the session id, then `attemptReconnect`. -/
def handleClose (s : WS) : WS × List Action :=
  attemptReconnect { s with connected := false, websocketId := none }

/-- `send` (part_004 lines 199-205): transmit only when a socket exists
and the connection is open; otherwise log and drop. -/
def sendCall (s : WS) (m : Msg) : List Action :=
  if s.hasSocket && s.connected then [Action.sendMsg m] else []

/-- `subscribeToChannels` (part_004 lines 119-128): wrap the channel list
in a single `subscribe` envelope and hand it to `send`. -/
def subscribeToChannels (s : WS) (chs : List String) : List Action :=
  sendCall s (Msg.subscribeMsg chs)

/-- The success continuation of a scheduled reconnect (part_004 lines
69-76): the `onopen` handler runs, then every channel currently in the
registry is re-subscribed with one `subscribeToChannels` call, skipped
when the registry is empty. -/
def reconnectResubscribe (s : WS) : WS × List Action :=
  let s1 := handleOpen s
  let chs := s1.subscribers.map Prod.fst
  if chs.isEmpty then (s1, [])
  else (s1, subscribeToChannels s1 chs)

/-- `this.subscribers.get(channel)` on the association list. -/
def findChannel : List (String × List Nat) → String → Option (List Nat)
  | [], _ => none
  | (c, l) :: rest, ch => if c = ch then some l else findChannel rest ch

/-- `this.subscribers.get(channel).add(callback)`: `Set.add` is a no-op
when the callback is already present. -/
def addCallbackTo : List (String × List Nat) → String → Nat → List (String × List Nat)
  | [], _, _ => []
  | (c, l) :: rest, ch, cb =>
    if c = ch then (c, if cb ∈ l then l else l ++ [cb]) :: rest
    else (c, l) :: addCallbackTo rest ch cb

/-- `unsubscribe` (part_004 lines 155-163): delete the callback from the
channel's set and drop the channel entry when the set becomes empty. -/
def removeCallbackFrom : List (String × List Nat) → String → Nat → List (String × List Nat)
  | [], _, _ => []
  | (c, l) :: rest, ch, cb =>
    if c = ch then
      (if (l.erase cb).isEmpty then rest else (c, l.erase cb) :: rest)
    else (c, l) :: removeCallbackFrom rest ch cb

/-- `subscribe` (part_004 lines 135-148): when the channel is new, create
its entry, emit a `subscribe` envelope for that single channel, then add
the callback; otherwise just add the callback. -/
def wsSubscribe (s : WS) (ch : String) (cb : Nat) : WS × List Action :=
  match findChannel s.subscribers ch with
  | some _ => ({ s with subscribers := addCallbackTo s.subscribers ch cb }, [])
  | none =>
    ({ s with subscribers := addCallbackTo (s.subscribers ++ [(ch, [])]) ch cb },
     subscribeToChannels s [ch])

/-- Invoking the unsubscribe handle returned by `subscribe`: calls
`unsubscribe(channel, callback)`; no message is sent. -/
def wsUnsubscribe (s : WS) (ch : String) (cb : Nat) : WS × List Action :=
  ({ s with subscribers := removeCallbackFrom s.subscribers ch cb }, [])

/-- `cb` is a registered listener of `ch`. -/
abbrev memListener (s : WS) (ch : String) (cb : Nat) : Prop :=
  cb ∈ (findChannel s.subscribers ch).getD []

/-- Events processed by the single-threaded event loop. -/
inductive Event where
  | appConnect
  | timerFire
  | socketOpen
  | socketError
  | socketClose
deriving DecidableEq

/-- One event-loop step.  `appConnect` is an application `connect()`
call and `timerFire` the reconnect timer invoking `connect()`; both run
the synchronous part of `connect()`.  `socketError` only rejects the
pending promise (no state change). -/
def step (s : WS) : Event → WS × List Action
  | Event.appConnect => connectCall s
  | Event.timerFire => connectCall s
  | Event.socketOpen => (handleOpen s, [])
  | Event.socketError => (s, [])
  | Event.socketClose => handleClose s

/-- Run a list of events, collecting actions. -/
def runEvents : WS → List Event → WS × List Action
  | s, [] => (s, [])
  | s, e :: es =>
    let p1 := step s e
    let p2 := runEvents p1.1 es
    (p2.1, p1.2 ++ p2.2)

/-- A run of `n` consecutive connection failures: each failed attempt
fires `onclose`, which schedules the next attempt. -/
def runFailures : Nat → WS → WS × List Action
  | 0, s => (s, [])
  | n + 1, s =>
    let p1 := handleClose s
    let p2 := runFailures n p1.1
    (p2.1, p1.2 ++ p2.2)

/-- The delays of the `schedule` actions in a list, in order. -/
def scheduledDelays (acts : List Action) : List Nat :=
  acts.filterMap fun a =>
    match a with
    | Action.schedule d => some d
    | _ => none

/-- **C5 (failing behavior).** `connect()` has no in-flight guard: a
second `connect()` call issued while the first attempt is still pending
(no open/error/close event in between) constructs a second `WebSocket`,
so two transports are opened instead of at most one. -/
theorem second_connect_opens_second_transport :
    ((connectCall initWS).2 ++ (connectCall (connectCall initWS).1).2).count
      Action.newSocket = 2 := by decide

theorem scheduledDelays_append (a b : List Action) :
    scheduledDelays (a ++ b) = scheduledDelays a ++ scheduledDelays b :=
  List.filterMap_append a b _

theorem runFailures_delays (n : Nat) :
    ∀ s : WS, s.reconnectAttempts + n ≤ s.maxReconnectAttempts →
      scheduledDelays (runFailures n s).2 =
        (List.range n).map
          (fun i => s.reconnectDelay * 2 ^ (s.reconnectAttempts + i)) := by
  induction n with
  | zero => intro s h; rfl
  | succ n ih =>
    intro s h
    have hlt : ¬ s.reconnectAttempts ≥ s.maxReconnectAttempts := by omega
    have hih := ih ⟨s.hasSocket, false, none, s.subscribers,
      s.reconnectAttempts + 1, s.maxReconnectAttempts, s.reconnectDelay⟩
      (by simp only; omega)
    simp only at hih
    have hhead : ∀ d : Nat, scheduledDelays [Action.schedule d] = [d] :=
      fun d => rfl
    simp only [runFailures, handleClose, attemptReconnect, hlt, if_false]
    rw [scheduledDelays_append, hih, hhead, List.singleton_append]
    rw [List.range_succ_eq_map, List.map_cons, List.map_map]
    congr 1
    apply List.map_congr_left
    intro a _
    simp only [Function.comp_apply]
    congr 1
    congr 1
    omega

/-- **C6.** In one consecutive-failure run started with a zeroed attempt
counter and the default configuration, the delay scheduled before attempt
`n` (1-indexed, `n ≤ 10`) is exactly `1000 * 2 ^ (n - 1)` ms: the run of
`n` failures schedules delays `1000 * 2 ^ 0, …, 1000 * 2 ^ (n - 1)`, and
in particular attempts 1-5 are delayed 1000, 2000, 4000, 8000, 16000 ms.
-/
theorem backoff_delays (s : WS) (n : Nat) (h0 : s.reconnectAttempts = 0)
    (hbd : s.reconnectDelay = 1000) (hmax : s.maxReconnectAttempts = 10)
    (hn : n ≤ 10) :
    scheduledDelays (runFailures n s).2 =
      (List.range n).map (fun i => 1000 * 2 ^ i) ∧
    scheduledDelays (runFailures 5 s).2 = [1000, 2000, 4000, 8000, 16000] := by
  have h1 := runFailures_delays n s (by omega)
  have h2 := runFailures_delays 5 s (by omega)
  rw [h0, hbd] at h1 h2
  constructor
  · simpa using h1
  · rw [h2]; decide

/-- Witness for C6: five consecutive failures from the initial state. -/
theorem backoff_delays_witness :
    scheduledDelays (runFailures 5 initWS).2 =
      (List.range 5).map (fun i => 1000 * 2 ^ i) ∧
    scheduledDelays (runFailures 5 initWS).2 = [1000, 2000, 4000, 8000, 16000] :=
  backoff_delays initWS 5 rfl rfl rfl (by decide)

theorem step_ceiling (s : WS) (e : Event)
    (hceil : s.maxReconnectAttempts ≤ s.reconnectAttempts)
    (hne : e ≠ Event.socketOpen) :
    (step s e).1.reconnectAttempts = s.reconnectAttempts ∧
    (step s e).1.maxReconnectAttempts = s.maxReconnectAttempts ∧
    scheduledDelays (step s e).2 = [] := by
  cases e with
  | appConnect => exact ⟨rfl, rfl, rfl⟩
  | timerFire => exact ⟨rfl, rfl, rfl⟩
  | socketOpen => exact absurd rfl hne
  | socketError => exact ⟨rfl, rfl, rfl⟩
  | socketClose =>
    have hge : s.reconnectAttempts ≥ s.maxReconnectAttempts := hceil
    refine ⟨?_, ?_, ?_⟩ <;>
      simp [step, handleClose, attemptReconnect, hge, scheduledDelays]

theorem runEvents_ceiling (evs : List Event) :
    ∀ s : WS, s.maxReconnectAttempts ≤ s.reconnectAttempts →
      Event.socketOpen ∉ evs →
      scheduledDelays (runEvents s evs).2 = [] := by
  induction evs with
  | nil => intro s _ _; rfl
  | cons e es ih =>
    intro s hceil hno
    have hne : e ≠ Event.socketOpen := fun he => hno (he ▸ List.mem_cons_self e es)
    have hes : Event.socketOpen ∉ es := fun hm => hno (List.mem_cons_of_mem e hm)
    obtain ⟨ha, hm, hd⟩ := step_ceiling s e hceil hne
    have h2 : scheduledDelays (runEvents (step s e).1 es).2 = [] :=
      ih (step s e).1 (by rw [ha, hm]; exact hceil) hes
    simp only [runEvents]
    rw [scheduledDelays_append, hd, h2]
    rfl

theorem step_attempts_mono (s : WS) (e : Event) (hne : e ≠ Event.socketOpen) :
    s.reconnectAttempts ≤ (step s e).1.reconnectAttempts := by
  cases e with
  | appConnect => exact Nat.le_refl _
  | timerFire => exact Nat.le_refl _
  | socketOpen => exact absurd rfl hne
  | socketError => exact Nat.le_refl _
  | socketClose =>
    simp only [step, handleClose, attemptReconnect]
    split
    · exact Nat.le_refl _
    · simp

/-- **C7.** Once the attempt counter has reached the ceiling (the 10th
consecutive failure under the default configuration), no event sequence
that contains no successful open ever schedules another automatic
attempt — in particular no 11th attempt after the 10th failure; the
counter is reset to zero exactly by a successful open (which only a
`connect()` call can produce, since only `connect()` constructs a
socket), and no other event ever lowers it. -/
theorem reconnect_ceiling (s : WS) (evs : List Event) (e : Event)
    (hceil : s.maxReconnectAttempts ≤ s.reconnectAttempts)
    (hnoopen : Event.socketOpen ∉ evs) (hne : e ≠ Event.socketOpen) :
    scheduledDelays (runEvents s evs).2 = [] ∧
    (step s Event.socketOpen).1.reconnectAttempts = 0 ∧
    s.reconnectAttempts ≤ (step s e).1.reconnectAttempts :=
  ⟨runEvents_ceiling evs s hceil hnoopen, rfl, step_attempts_mono s e hne⟩

/-- Witness for C7: the state after the 10th consecutive failure, under
further close/connect/timer events. -/
theorem reconnect_ceiling_witness :
    scheduledDelays
      (runEvents { initWS with reconnectAttempts := 10 }
        [Event.socketClose, Event.appConnect, Event.socketClose,
         Event.timerFire, Event.socketClose]).2 = [] ∧
    (step { initWS with reconnectAttempts := 10 }
      Event.socketOpen).1.reconnectAttempts = 0 ∧
    ({ initWS with reconnectAttempts := 10 } : WS).reconnectAttempts ≤
      (step { initWS with reconnectAttempts := 10 }
        Event.socketClose).1.reconnectAttempts :=
  reconnect_ceiling { initWS with reconnectAttempts := 10 }
    [Event.socketClose, Event.appConnect, Event.socketClose,
     Event.timerFire, Event.socketClose]
    Event.socketClose (by decide) (by decide) (by decide)

/-- **C8.** After a successful automatic reconnect with a non-empty
Subscription Registry, the manager emits exactly one `subscribe`
envelope, whose channel list is the registry's key list — so it covers
every subscribed channel, each exactly once (the registry's keys are
pairwise distinct). -/
theorem resubscribe_after_reconnect (s : WS) (ch : String)
    (hsock : s.hasSocket = true)
    (hkeys : (s.subscribers.map Prod.fst).Nodup)
    (hne : s.subscribers ≠ [])
    (hch : ch ∈ s.subscribers.map Prod.fst) :
    (reconnectResubscribe s).2 =
      [Action.sendMsg (Msg.subscribeMsg (s.subscribers.map Prod.fst))] ∧
    (s.subscribers.map Prod.fst).count ch = 1 := by
  constructor
  · have hchs : (s.subscribers.map Prod.fst).isEmpty = false := by
      cases hsub : s.subscribers with
      | nil => exact absurd hsub hne
      | cons p rest => rfl
    simp only [reconnectResubscribe, hchs, Bool.false_eq_true, if_false,
      subscribeToChannels, sendCall, handleOpen, hsock, Bool.and_self, if_true]
  · exact List.count_eq_one_of_mem hkeys hch

/-- The registry state used in the C8 witness. -/
def wsOneSub : WS :=
  { initWS with
      hasSocket := true
      subscribers := [("main:orders", [0])] }

/-- Witness for C8: registry `[("main:orders", {cb 0})]` after a
reconnect. -/
theorem resubscribe_after_reconnect_witness :
    (reconnectResubscribe wsOneSub).2 =
      [Action.sendMsg (Msg.subscribeMsg (wsOneSub.subscribers.map Prod.fst))] ∧
    (wsOneSub.subscribers.map Prod.fst).count "main:orders" = 1 :=
  resubscribe_after_reconnect wsOneSub "main:orders" rfl (by decide)
    (by intro h; exact List.noConfusion h) (by decide)

theorem findChannel_eq_none_iff (subs : List (String × List Nat)) (ch : String) :
    findChannel subs ch = none ↔ ch ∉ subs.map Prod.fst := by
  induction subs with
  | nil => simp [findChannel]
  | cons p rest ih =>
    obtain ⟨c, l⟩ := p
    by_cases hc : c = ch
    · subst hc
      simp [findChannel]
    · simp only [findChannel, hc, if_false, List.map_cons, List.mem_cons, ih]
      constructor
      · rintro hnm (he | hm)
        · exact hc he.symm
        · exact hnm hm
      · exact fun hnm hm => hnm (Or.inr hm)

theorem findChannel_append_none (subs : List (String × List Nat)) (ch : String)
    (l : List Nat) (h : findChannel subs ch = none) :
    findChannel (subs ++ [(ch, l)]) ch = some l := by
  induction subs with
  | nil => simp [findChannel]
  | cons p rest ih =>
    obtain ⟨c, l'⟩ := p
    by_cases hc : c = ch
    · rw [findChannel, if_pos hc] at h
      exact Option.noConfusion h
    · rw [findChannel, if_neg hc] at h
      simp only [List.cons_append, findChannel, hc, if_false]
      exact ih h

theorem addCallbackTo_append (subs : List (String × List Nat)) (ch : String)
    (cb : Nat) (l : List Nat) (h : findChannel subs ch = none) :
    addCallbackTo (subs ++ [(ch, l)]) ch cb =
      subs ++ [(ch, if cb ∈ l then l else l ++ [cb])] := by
  induction subs with
  | nil => simp [addCallbackTo]
  | cons p rest ih =>
    obtain ⟨c, l'⟩ := p
    by_cases hc : c = ch
    · rw [findChannel, if_pos hc] at h
      exact Option.noConfusion h
    · rw [findChannel, if_neg hc] at h
      simp only [List.cons_append, addCallbackTo, hc, if_false,
        List.append_eq, ih h]

theorem findChannel_addCallbackTo (subs : List (String × List Nat))
    (ch : String) (cb : Nat) (l : List Nat)
    (h : findChannel subs ch = some l) :
    findChannel (addCallbackTo subs ch cb) ch =
      some (if cb ∈ l then l else l ++ [cb]) := by
  induction subs with
  | nil => exact Option.noConfusion h
  | cons p rest ih =>
    obtain ⟨c, l'⟩ := p
    by_cases hc : c = ch
    · rw [findChannel, if_pos hc] at h
      injection h with h
      subst h
      simp [addCallbackTo, findChannel, hc]
    · rw [findChannel, if_neg hc] at h
      simp only [addCallbackTo, hc, if_false, findChannel]
      exact ih h

theorem removeCallback_mem (subs : List (String × List Nat))
    (hkeys : (subs.map Prod.fst).Nodup)
    (hvals : ∀ p ∈ subs, (Prod.snd p).Nodup)
    (ch ch' : String) (cb cb' : Nat) :
    cb' ∈ (findChannel (removeCallbackFrom subs ch cb) ch').getD [] ↔
      (cb' ∈ (findChannel subs ch').getD [] ∧ ¬(ch' = ch ∧ cb' = cb)) := by
  induction subs with
  | nil => simp [removeCallbackFrom, findChannel]
  | cons p rest ih =>
    obtain ⟨c, l⟩ := p
    simp only [List.map_cons, List.nodup_cons] at hkeys
    have hlnd : l.Nodup := hvals (c, l) (List.mem_cons_self _ _)
    have hvals' : ∀ q ∈ rest, (Prod.snd q).Nodup :=
      fun q hq => hvals q (List.mem_cons_of_mem _ hq)
    have ihr := ih hkeys.2 hvals'
    by_cases hc : c = ch
    · by_cases herase : (l.erase cb).isEmpty
      · rw [removeCallbackFrom, if_pos hc, if_pos herase]
        by_cases hch' : c = ch'
        · rw [findChannel, if_pos hch']
          have hrestnone : findChannel rest ch' = none :=
            (findChannel_eq_none_iff rest ch').mpr (hch' ▸ hkeys.1)
          rw [hrestnone]
          simp only [Option.getD_none, Option.getD_some, List.not_mem_nil,
            false_iff]
          rintro ⟨hmem, hne⟩
          have hcb' : cb' ≠ cb := fun he => hne ⟨hch'.symm.trans hc, he⟩
          have hin : cb' ∈ l.erase cb := (List.mem_erase_of_ne hcb').mpr hmem
          rw [List.isEmpty_iff] at herase
          rw [herase] at hin
          exact List.not_mem_nil cb' hin
        · rw [findChannel, if_neg hch']
          have hne2 : ¬(ch' = ch ∧ cb' = cb) :=
            fun hp => hch' (hc.trans hp.1.symm)
          simp [hne2]
      · rw [removeCallbackFrom, if_pos hc, if_neg herase]
        by_cases hch' : c = ch'
        · simp only [findChannel, if_pos hch', Option.getD_some]
          rw [List.Nodup.mem_erase_iff hlnd]
          constructor
          · rintro ⟨hne, hmem⟩
            exact ⟨hmem, fun hp => hne hp.2⟩
          · rintro ⟨hmem, hne⟩
            exact ⟨fun he => hne ⟨hch'.symm.trans hc, he⟩, hmem⟩
        · simp only [findChannel, if_neg hch']
          have hne2 : ¬(ch' = ch ∧ cb' = cb) :=
            fun hp => hch' (hc.trans hp.1.symm)
          simp [hne2]
    · rw [removeCallbackFrom, if_neg hc]
      by_cases hch' : c = ch'
      · simp only [findChannel, if_pos hch', Option.getD_some]
        have hne2 : ¬(ch' = ch ∧ cb' = cb) :=
          fun hp => hc (hch'.trans hp.1)
        simp [hne2]
      · simp only [findChannel, if_neg hch']
        exact ihr

theorem removeCallback_drops_channel (subs : List (String × List Nat))
    (ch : String) (cb : Nat) (l : List Nat)
    (hkeys : (subs.map Prod.fst).Nodup)
    (h : findChannel subs ch = some l) (he : l.erase cb = []) :
    findChannel (removeCallbackFrom subs ch cb) ch = none := by
  induction subs with
  | nil => exact Option.noConfusion h
  | cons p rest ih =>
    obtain ⟨c, l'⟩ := p
    simp only [List.map_cons, List.nodup_cons] at hkeys
    by_cases hc : c = ch
    · rw [findChannel, if_pos hc] at h
      injection h with h
      have hemp : (l'.erase cb).isEmpty = true := by rw [h, he]; rfl
      rw [removeCallbackFrom, if_pos hc, if_pos hemp]
      exact (findChannel_eq_none_iff rest ch).mpr (hc ▸ hkeys.1)
    · rw [findChannel, if_neg hc] at h
      rw [removeCallbackFrom, if_neg hc, findChannel, if_neg hc]
      exact ih hkeys.2 h

/-- **C9.** `subscribe(channel, listener)` emits a `subscribe` envelope
exactly when the channel has no listeners yet (the listener being the
first one registered for it), and registers the listener; invoking the
returned unsubscribe handle removes exactly that one listener, sends
nothing, and deletes the channel entry when its listener set becomes
empty. -/
theorem subscribe_unsubscribe_registry (s : WS) (ch ch' : String)
    (cb cb' : Nat)
    (hsock : s.hasSocket = true) (hconn : s.connected = true)
    (hkeys : (s.subscribers.map Prod.fst).Nodup)
    (hvals : ∀ p ∈ s.subscribers, (Prod.snd p).Nodup) :
    (findChannel s.subscribers ch = none →
      (wsSubscribe s ch cb).2 = [Action.sendMsg (Msg.subscribeMsg [ch])]) ∧
    ((findChannel s.subscribers ch).isSome → (wsSubscribe s ch cb).2 = []) ∧
    memListener (wsSubscribe s ch cb).1 ch cb ∧
    (memListener (wsUnsubscribe s ch cb).1 ch' cb' ↔
      (memListener s ch' cb' ∧ ¬(ch' = ch ∧ cb' = cb))) ∧
    (∀ l : List Nat, findChannel s.subscribers ch = some l →
      l.erase cb = [] →
      findChannel (wsUnsubscribe s ch cb).1.subscribers ch = none) ∧
    (wsUnsubscribe s ch cb).2 = [] := by
  refine ⟨?_, ?_, ?_, ?_, ?_, rfl⟩
  · intro h
    simp only [wsSubscribe, h, subscribeToChannels, sendCall, hsock, hconn,
      Bool.and_self, if_true]
  · intro h
    cases hf : findChannel s.subscribers ch with
    | none => rw [hf] at h; exact absurd h (by simp)
    | some l => simp only [wsSubscribe, hf]
  · cases hf : findChannel s.subscribers ch with
    | none =>
      simp only [wsSubscribe, hf, memListener]
      rw [addCallbackTo_append s.subscribers ch cb [] hf]
      rw [findChannel_append_none s.subscribers ch _ hf]
      simp
    | some l =>
      simp only [wsSubscribe, hf, memListener]
      rw [findChannel_addCallbackTo s.subscribers ch cb l hf]
      by_cases hm : cb ∈ l
      · simp [hm]
      · simp [hm]
  · exact removeCallback_mem s.subscribers hkeys hvals ch ch' cb cb'
  · intro l hf he
    exact removeCallback_drops_channel s.subscribers ch cb l hkeys hf he

/-- The registry state used in the C9 witness. -/
def regSample : WS :=
  { initWS with
      hasSocket := true
      connected := true
      subscribers := [("main:orders", [0]), ("main:status", [1, 2])] }

/-- Witness for C9: first/repeat subscription, listener removal, and
channel-entry deletion on the sample registry. -/
theorem subscribe_unsubscribe_registry_witness :
    (wsSubscribe regSample "order:units" 5).2 =
      [Action.sendMsg (Msg.subscribeMsg ["order:units"])] ∧
    (wsSubscribe regSample "main:orders" 5).2 = [] ∧
    memListener (wsSubscribe regSample "main:orders" 5).1 "main:orders" 5 ∧
    ¬ memListener (wsUnsubscribe regSample "main:status" 1).1 "main:status" 1 ∧
    memListener (wsUnsubscribe regSample "main:status" 1).1 "main:status" 2 ∧
    findChannel (wsUnsubscribe regSample "main:orders" 0).1.subscribers
      "main:orders" = none ∧
    (wsUnsubscribe regSample "main:orders" 0).2 = [] := by
  have h1 := subscribe_unsubscribe_registry regSample "order:units" "x" 5 0
    rfl rfl (by decide) (by decide)
  have h2 := subscribe_unsubscribe_registry regSample "main:orders" "x" 5 0
    rfl rfl (by decide) (by decide)
  have h3 := subscribe_unsubscribe_registry regSample "main:status"
    "main:status" 1 1 rfl rfl (by decide) (by decide)
  have h4 := subscribe_unsubscribe_registry regSample "main:status"
    "main:status" 1 2 rfl rfl (by decide) (by decide)
  have h5 := subscribe_unsubscribe_registry regSample "main:orders" "x" 0 0
    rfl rfl (by decide) (by decide)
  refine ⟨h1.1 (by decide), h2.2.1 (by decide), h2.2.2.1, ?_, ?_, ?_,
    h5.2.2.2.2.2⟩
  · intro hm
    exact ((h3.2.2.2.1).mp hm).2 ⟨rfl, rfl⟩
  · exact (h4.2.2.2.1).mpr ⟨by decide, by decide⟩
  · exact h5.2.2.2.2.1 [0] (by decide) (by decide)

-- Behavioral sanity checks against the reference scenarios of the spec.

example : parseJiraKey "RO-123".toList =
    some ⟨"repair_order", 123, ['R', 'O']⟩ := by decide
example : parseJiraKey "RO-1a".toList =
    some ⟨"repair_order", 1, ['R', 'O']⟩ := by decide
example : parseJiraKey "ZZ-9".toList = none := by decide
example : parseJiraKey "RO-12-3".toList = none := by decide
example : parseJiraKey "RO- 12".toList = some ⟨"repair_order", 12, ['R', 'O']⟩ := by decide
example : parseJiraKey "RO-".toList = none := by decide
example : parseJiraKey "".toList = none := by decide
example : natToDigits 120 = ['1', '2', '0'] := by
  rw [natToDigits, natToDigits, natToDigits]
  norm_num
  exact ⟨rfl, rfl, rfl⟩
example : createJiraKey "status" 7 = some "ST-7".toList := by
  have h7 : natToDigits 7 = ['7'] := by
    rw [natToDigits]
    decide
  simp only [createJiraKey, pfxMap, h7]
  rfl
example : applyDelete [Rec.mk 3 0, Rec.mk 7 0] ["RO-3".toList] = [Rec.mk 7 0] := by decide
example : applyDelete [Rec.mk 9 0] ["ZZ-9".toList] = [Rec.mk 9 0] := by decide
example : applyDelete [Rec.mk 7 0] ["ST-7".toList] = [] := by decide

end RepairTracker
